import Mathlib

/-!
Verification of the fragment-localization and highlight-merging engine of
`src/pages/01_Narratives_on_Articles.py`.

Python strings are modelled as `List Char`; `re` substitutions used by the
code are modelled as direct recursive functions with the same semantics on
the character classes involved; machine floats appearing in the code
(`int(len(nf) * 1.4)`, the `0.80` similarity threshold) are modelled with
exact rational arithmetic (`14 * n / 10`, `4/5`).
-/

set_option maxRecDepth 100000

namespace MigNar

/-- Whitespace class used by Python's `str.strip` and `re` `\s` on the
ASCII range. -/
def pyWs (c : Char) : Bool :=
  c = ' ' || c = '\t' || c = '\n' || c = '\x0d' || c = '\x0b' || c = '\x0c'

/-- ASCII alphanumeric test, the class `[A-Za-z0-9]`. -/
def isAsciiAlnum (c : Char) : Bool :=
  ('A' ≤ c && c ≤ 'Z') || ('a' ≤ c && c ≤ 'z') || ('0' ≤ c && c ≤ '9')

/-- Python `str.strip()`: drop leading and trailing whitespace. -/
def pyStrip (l : List Char) : List Char :=
  ((l.dropWhile pyWs).reverse.dropWhile pyWs).reverse

/-- Worker for whitespace collapsing: the flag records whether we are
inside a whitespace run that has already emitted its single space. -/
def collapseGo : Bool → List Char → List Char
  | _, [] => []
  | b, c :: rest =>
    if pyWs c then
      if b then collapseGo true rest else ' ' :: collapseGo true rest
    else c :: collapseGo false rest

/-- `re.sub(r"\s+", " ", t)`: replace every maximal whitespace run by a
single space. -/
def collapseWs (l : List Char) : List Char := collapseGo false l

/-- The character canonicalization of `normalize_text`: curly quotes to
straight quotes, en/em dashes to hyphen. -/
def qmap (c : Char) : Char :=
  if c = '‘' || c = '’' then '\''
  else if c = '“' || c = '”' then '"'
  else if c = '–' || c = '—' then '-'
  else c

/-- `normalize_text` from the source: strip, canonicalize quote and dash
characters, collapse whitespace runs to single spaces. -/
def normalize_text (l : List Char) : List Char :=
  collapseWs ((pyStrip l).map qmap)

example : normalize_text "  hello   world ".data = "hello world".data := by decide

example : normalize_text "a\n‘b’  –  c".data = "a 'b' - c".data := by decide

/-! ### Idempotence of `normalize_text` -/

/-- The no-two-adjacent-whitespace relation for whitespace-collapsed text. -/
def noWsPair (a b : Char) : Prop := pyWs a = false ∨ pyWs b = false

lemma qmap_ws (c : Char) : pyWs (qmap c) = pyWs c := by
  unfold qmap
  split
  · next h =>
    rcases Bool.or_eq_true_iff.mp h with h' | h' <;>
      simp only [decide_eq_true_eq] at h' <;> subst h' <;> rfl
  split
  · next h =>
    rcases Bool.or_eq_true_iff.mp h with h' | h' <;>
      simp only [decide_eq_true_eq] at h' <;> subst h' <;> rfl
  split
  · next h =>
    rcases Bool.or_eq_true_iff.mp h with h' | h' <;>
      simp only [decide_eq_true_eq] at h' <;> subst h' <;> rfl
  · rfl

lemma qmap_idem (c : Char) : qmap (qmap c) = qmap c := by
  unfold qmap
  split
  · next h =>
    rcases Bool.or_eq_true_iff.mp h with h' | h' <;>
      simp only [decide_eq_true_eq] at h' <;> subst h' <;> rfl
  split
  · next h =>
    rcases Bool.or_eq_true_iff.mp h with h' | h' <;>
      simp only [decide_eq_true_eq] at h' <;> subst h' <;> rfl
  split
  · next h =>
    rcases Bool.or_eq_true_iff.mp h with h' | h' <;>
      simp only [decide_eq_true_eq] at h' <;> subst h' <;> rfl
  · rfl

lemma collapseGo_nil (b : Bool) : collapseGo b [] = [] := rfl

lemma collapseGo_cons (b : Bool) (a : Char) (rest : List Char) :
    collapseGo b (a :: rest) =
      if pyWs a then (if b then collapseGo true rest else ' ' :: collapseGo true rest)
      else a :: collapseGo false rest := rfl

lemma collapseGo_cons_ws_true {a : Char} {rest : List Char} (h : pyWs a = true) :
    collapseGo true (a :: rest) = collapseGo true rest := by
  rw [collapseGo_cons]; simp [h]

lemma collapseGo_cons_ws_false {a : Char} {rest : List Char} (h : pyWs a = true) :
    collapseGo false (a :: rest) = ' ' :: collapseGo true rest := by
  rw [collapseGo_cons]; simp [h]

lemma collapseGo_cons_nws {a : Char} {rest : List Char} (b : Bool) (h : pyWs a = false) :
    collapseGo b (a :: rest) = a :: collapseGo false rest := by
  rw [collapseGo_cons]; simp [h]

lemma collapseGo_mem : ∀ (b : Bool) (l : List Char) (c : Char),
    c ∈ collapseGo b l → (c ∈ l ∧ pyWs c = false) ∨ c = ' ' := by
  intro b l
  induction l generalizing b with
  | nil => intro c h; simp [collapseGo_nil] at h
  | cons a rest ih =>
    intro c h
    by_cases hw : pyWs a = true
    · cases b with
      | true =>
        rw [collapseGo_cons_ws_true hw] at h
        rcases ih true c h with ⟨hm, hws⟩ | hsp
        · exact Or.inl ⟨List.mem_cons_of_mem _ hm, hws⟩
        · exact Or.inr hsp
      | false =>
        rw [collapseGo_cons_ws_false hw, List.mem_cons] at h
        rcases h with h | h
        · exact Or.inr h
        · rcases ih true c h with ⟨hm, hws⟩ | hsp
          · exact Or.inl ⟨List.mem_cons_of_mem _ hm, hws⟩
          · exact Or.inr hsp
    · have hw' : pyWs a = false := by simpa using hw
      rw [collapseGo_cons_nws b hw', List.mem_cons] at h
      rcases h with h | h
      · subst h
        exact Or.inl ⟨List.mem_cons_self _ _, hw'⟩
      · rcases ih false c h with ⟨hm, hws⟩ | hsp
        · exact Or.inl ⟨List.mem_cons_of_mem _ hm, hws⟩
        · exact Or.inr hsp

lemma collapseGo_chain : ∀ l : List Char,
    (List.Chain' noWsPair (collapseGo false l)) ∧
    (List.Chain' noWsPair (collapseGo true l) ∧
      ∀ c, (collapseGo true l).head? = some c → pyWs c = false) := by
  intro l
  induction l with
  | nil => exact ⟨List.chain'_nil, List.chain'_nil, by intro c h; simp [collapseGo] at h⟩
  | cons a rest ih =>
    obtain ⟨ihF, ihT, ihTh⟩ := ih
    by_cases hw : pyWs a = true
    · refine ⟨?_, ?_, ?_⟩
      · rw [collapseGo_cons_ws_false hw, List.chain'_cons']
        refine ⟨?_, ihT⟩
        intro y hy
        exact Or.inr (ihTh y hy)
      · rw [collapseGo_cons_ws_true hw]; exact ihT
      · intro c hc
        rw [collapseGo_cons_ws_true hw] at hc
        exact ihTh c hc
    · have hw' : pyWs a = false := by simpa using hw
      have hch : List.Chain' noWsPair (a :: collapseGo false rest) := by
        rw [List.chain'_cons']
        exact ⟨fun y _ => Or.inl hw', ihF⟩
      refine ⟨by rw [collapseGo_cons_nws false hw']; exact hch,
        by rw [collapseGo_cons_nws true hw']; exact hch, ?_⟩
      intro c hc
      rw [collapseGo_cons_nws true hw'] at hc
      simp only [List.head?_cons, Option.some.injEq] at hc
      subst hc; exact hw'

lemma collapseGo_fix : ∀ l : List Char,
    (∀ c ∈ l, pyWs c = true → c = ' ') → List.Chain' noWsPair l →
    (collapseGo false l = l ∧
      ((∀ c, l.head? = some c → pyWs c = false) → collapseGo true l = l)) := by
  intro l
  induction l with
  | nil => intro _ _; exact ⟨rfl, fun _ => rfl⟩
  | cons a rest ih =>
    intro hsp hch
    have hsp' : ∀ c ∈ rest, pyWs c = true → c = ' ' :=
      fun c hc => hsp c (List.mem_cons_of_mem _ hc)
    rw [List.chain'_cons'] at hch
    obtain ⟨hhd, hch'⟩ := hch
    obtain ⟨ihF, ihT⟩ := ih hsp' hch'
    by_cases hw : pyWs a = true
    · have ha : a = ' ' := hsp a (List.mem_cons_self _ _) hw
      have hrest : ∀ c, rest.head? = some c → pyWs c = false := by
        intro c hc
        rcases hhd c hc with h | h
        · exact absurd hw (by simp [h])
        · exact h
      constructor
      · rw [collapseGo_cons_ws_false hw, ihT hrest, ha]
      · intro hhead
        exact absurd hw (by simp [hhead a (by simp)])
    · have hw' : pyWs a = false := by simpa using hw
      constructor
      · rw [collapseGo_cons_nws false hw', ihF]
      · intro _
        rw [collapseGo_cons_nws true hw', ihF]

lemma collapseGo_getLast? : ∀ (l : List Char) (b : Bool) (c : Char),
    l.getLast? = some c → pyWs c = false → (collapseGo b l).getLast? = some c := by
  intro l
  induction l with
  | nil => intro b c h; simp at h
  | cons a rest ih =>
    intro b c h hws
    cases rest with
    | nil =>
      simp only [List.getLast?_singleton, Option.some.injEq] at h
      subst h
      rw [collapseGo_cons_nws b hws, collapseGo_nil]
      simp
    | cons a' r =>
      rw [List.getLast?_cons_cons] at h
      by_cases hw : pyWs a = true
      · have htail := ih true c h hws
        cases b with
        | true =>
          rw [collapseGo_cons_ws_true hw]; exact htail
        | false =>
          rw [collapseGo_cons_ws_false hw]
          have hne : collapseGo true (a' :: r) ≠ [] := by
            intro hnil; rw [hnil] at htail; simp at htail
          obtain ⟨d, L, hdl⟩ := List.exists_cons_of_ne_nil hne
          rw [hdl] at htail ⊢
          rw [List.getLast?_cons_cons]
          exact htail
      · have hw' : pyWs a = false := by simpa using hw
        have htail := ih false c h hws
        rw [collapseGo_cons_nws b hw']
        have hne : collapseGo false (a' :: r) ≠ [] := by
          intro hnil; rw [hnil] at htail; simp at htail
        obtain ⟨d, L, hdl⟩ := List.exists_cons_of_ne_nil hne
        rw [hdl] at htail ⊢
        rw [List.getLast?_cons_cons]
        exact htail

lemma collapseGo_false_head? (l : List Char) (c : Char)
    (h : l.head? = some c) (hws : pyWs c = false) :
    (collapseGo false l).head? = some c := by
  cases l with
  | nil => simp at h
  | cons a rest =>
    simp only [List.head?_cons, Option.some.injEq] at h
    subst h
    rw [collapseGo_cons_nws false hws]
    rfl

lemma head?_dropWhile (p : Char → Bool) : ∀ (l : List Char) (c : Char),
    (l.dropWhile p).head? = some c → p c = false := by
  intro l
  induction l with
  | nil => intro c h; simp at h
  | cons a rest ih =>
    intro c h
    rw [List.dropWhile_cons] at h
    by_cases hp : p a = true
    · rw [if_pos hp] at h; exact ih c h
    · rw [if_neg hp] at h
      simp only [List.head?_cons, Option.some.injEq] at h
      subst h; simpa using hp

lemma getLast?_dropWhile (p : Char → Bool) : ∀ l : List Char,
    List.dropWhile p l ≠ [] → (List.dropWhile p l).getLast? = l.getLast? := by
  intro l
  induction l with
  | nil => intro h; simp at h
  | cons a rest ih =>
    intro h
    rw [List.dropWhile_cons] at h ⊢
    by_cases hp : p a = true
    · simp only [hp, if_true] at h ⊢
      have hrest : rest ≠ [] := by
        intro hnil; rw [hnil] at h; simp [List.dropWhile] at h
      rw [ih h]
      obtain ⟨d, L, hdl⟩ := List.exists_cons_of_ne_nil hrest
      rw [hdl, List.getLast?_cons_cons]
    · simp [hp]

lemma pyStrip_head? (l : List Char) (c : Char)
    (h : (pyStrip l).head? = some c) : pyWs c = false := by
  unfold pyStrip at h
  set X := l.dropWhile pyWs with hX
  set Y := X.reverse.dropWhile pyWs with hY
  rw [List.head?_reverse] at h
  have hne : Y ≠ [] := by
    intro hnil; rw [hnil] at h; simp at h
  rw [getLast?_dropWhile pyWs X.reverse hne, List.getLast?_reverse] at h
  exact head?_dropWhile pyWs l c h

lemma pyStrip_getLast? (l : List Char) (c : Char)
    (h : (pyStrip l).getLast? = some c) : pyWs c = false := by
  unfold pyStrip at h
  rw [List.getLast?_reverse] at h
  exact head?_dropWhile pyWs _ c h

lemma pyStrip_fix (l : List Char)
    (hh : ∀ c, l.head? = some c → pyWs c = false)
    (hl : ∀ c, l.getLast? = some c → pyWs c = false) : pyStrip l = l := by
  unfold pyStrip
  have h1 : l.dropWhile pyWs = l := by
    cases l with
    | nil => rfl
    | cons a rest =>
      rw [List.dropWhile_cons]
      simp [hh a (by simp)]
  rw [h1]
  have h2 : l.reverse.dropWhile pyWs = l.reverse := by
    cases hrev : l.reverse with
    | nil => rfl
    | cons a rest =>
      rw [List.dropWhile_cons]
      have : l.getLast? = some a := by
        rw [← List.head?_reverse, hrev]; rfl
      simp [hl a this]
  rw [h2, List.reverse_reverse]

lemma map_fix {l : List Char} (h : ∀ c ∈ l, qmap c = c) : l.map qmap = l := by
  induction l with
  | nil => rfl
  | cons a rest ih =>
    simp only [List.map_cons]
    rw [h a (List.mem_cons_self _ _), ih fun c hc => h c (List.mem_cons_of_mem _ hc)]

/-- The characters of a `normalize_text` result are fixed points of `qmap`
and its whitespace is canonical. -/
lemma normalize_text_chars (l : List Char) :
    ∀ c ∈ normalize_text l, qmap c = c ∧ (pyWs c = true → c = ' ') := by
  intro c hc
  unfold normalize_text collapseWs at hc
  rcases collapseGo_mem false _ c hc with ⟨hm, hws⟩ | hsp
  · obtain ⟨d, _, hd⟩ := List.mem_map.mp hm
    constructor
    · rw [← hd]; exact qmap_idem d
    · intro h; rw [h] at hws; cases hws
  · subst hsp; exact ⟨rfl, fun _ => rfl⟩

lemma normalize_text_head? (l : List Char) (c : Char)
    (h : (normalize_text l).head? = some c) : pyWs c = false := by
  unfold normalize_text collapseWs at h
  cases hm : (pyStrip l).map qmap with
  | nil => rw [hm] at h; simp [collapseGo] at h
  | cons a rest =>
    have ha : pyWs a = false := by
      have : ((pyStrip l).map qmap).head? = some a := by rw [hm]; rfl
      rw [List.head?_map] at this
      cases hh : (pyStrip l).head? with
      | none => rw [hh] at this; simp at this
      | some d =>
        rw [hh] at this
        simp only [Option.map_some', Option.some.injEq] at this
        rw [← this, qmap_ws]
        exact pyStrip_head? l d hh
    rw [hm] at h
    rw [collapseGo_false_head? (a :: rest) a rfl ha] at h
    simp only [Option.some.injEq] at h
    subst h; exact ha

lemma normalize_text_getLast? (l : List Char) (c : Char)
    (h : (normalize_text l).getLast? = some c) : pyWs c = false := by
  unfold normalize_text collapseWs at h
  cases hg : ((pyStrip l).map qmap).getLast? with
  | none =>
    have : (pyStrip l).map qmap = [] := by
      cases hm : (pyStrip l).map qmap with
      | nil => rfl
      | cons a rest => rw [hm] at hg; simp at hg
    rw [this] at h; simp [collapseGo] at h
  | some d =>
    have hd : pyWs d = false := by
      rw [List.getLast?_map] at hg
      cases hh : (pyStrip l).getLast? with
      | none => rw [hh] at hg; simp at hg
      | some e =>
        rw [hh] at hg
        simp only [Option.map_some', Option.some.injEq] at hg
        rw [← hg, qmap_ws]
        exact pyStrip_getLast? l e hh
    rw [collapseGo_getLast? _ false d hg hd] at h
    simp only [Option.some.injEq] at h
    subst h; exact hd

/-- C10 helper: `normalize_text` output is a fixed point of `normalize_text`. -/
lemma normalize_text_fixed (l : List Char) :
    normalize_text (normalize_text l) = normalize_text l := by
  have hchars := normalize_text_chars l
  have hstrip : pyStrip (normalize_text l) = normalize_text l :=
    pyStrip_fix _ (fun c hc => normalize_text_head? l c hc)
      (fun c hc => normalize_text_getLast? l c hc)
  have hmap : (normalize_text l).map qmap = normalize_text l :=
    map_fix fun c hc => (hchars c hc).1
  have hcollapse : collapseWs (normalize_text l) = normalize_text l := by
    unfold normalize_text collapseWs
    exact (collapseGo_fix _ (fun c hc h => ((normalize_text_chars l) c hc).2 h)
      (collapseGo_chain _).1).1
  calc normalize_text (normalize_text l)
      = collapseWs ((pyStrip (normalize_text l)).map qmap) := rfl
    _ = collapseWs ((normalize_text l).map qmap) := by rw [hstrip]
    _ = collapseWs (normalize_text l) := by rw [hmap]
    _ = normalize_text l := hcollapse

/-- C10: text normalization is idempotent — `normalize_text` reaches a
fixed point after one application, for every input string. -/
theorem c10_normalize_text_idempotent (l : List Char) :
    normalize_text (normalize_text l) = normalize_text l :=
  normalize_text_fixed l

/-! ### Fragment normalization -/

/-- ASCII lowercasing, Python `str.lower` on the character range used. -/
def lowerL (l : List Char) : List Char := l.map Char.toLower

/-- Worker for `dotsSub`; the fuel argument only drives the recursion and
is always at least the input length. -/
def dotsSubGo : Nat → List Char → List Char
  | 0, l => l
  | _, [] => []
  | fuel + 1, '…' :: rest => '.' :: '.' :: '.' :: dotsSubGo fuel rest
  | fuel + 1, '.' :: '.' :: '.' :: rest =>
    '.' :: '.' :: '.' :: dotsSubGo fuel (rest.dropWhile (· = '.'))
  | fuel + 1, c :: rest => c :: dotsSubGo fuel rest

/-- Replace each ellipsis glyph or maximal run of three or more dots by a
three-dot marker: `re.sub(r"(?:…|\.{3,})", "...", f)`. -/
def dotsSub (l : List Char) : List Char := dotsSubGo l.length l

/-- Strip one trailing ellipsis: `re.sub(r"(?:\.{3,}|…)$", "", f)` — the
maximal trailing dot run when its length is at least 3, otherwise a single
trailing ellipsis glyph. -/
def stripTrailingEllipsis (l : List Char) : List Char :=
  if 3 ≤ (l.reverse.takeWhile (· = '.')).length then
    (l.reverse.dropWhile (· = '.')).reverse
  else
    match l.reverse with
    | '…' :: rrest => rrest.reverse
    | _ => l

/-- Python `\w` on the ASCII range. -/
def isWordChar (c : Char) : Bool := isAsciiAlnum c || c = '_'

/-- The alternation `(%|percent|per\s*cent)\b` of the percent pattern,
tried at the start of `l` after `pre` characters were already consumed;
returns the total consumed length on success.  The final `\b` sits after
a non-word `%` (so it requires a following word character) or after a
word character `t` (so it requires a following non-word character or the
end of the string). -/
def headIsWord (l : List Char) : Bool :=
  match l with
  | c :: _ => isWordChar c
  | [] => false

/-- `\b` just after a word character: the next character must be absent or
a non-word character. -/
def boundaryAfterWord (l : List Char) : Bool :=
  match l with
  | c :: _ => ! isWordChar c
  | [] => true

def pctAlt (pre : Nat) (l : List Char) : Option Nat :=
  if l.head? == some '%' && headIsWord (l.drop 1) then
    some (pre + 1)
  else if lowerL (l.take 7) == "percent".data && boundaryAfterWord (l.drop 7) then
    some (pre + 7)
  else if lowerL (l.take 3) == "per".data then
    let rest := l.drop 3
    let ws := rest.takeWhile pyWs
    let rest2 := rest.dropWhile pyWs
    if lowerL (rest2.take 4) == "cent".data && boundaryAfterWord (rest2.drop 4) then
      some (pre + 3 + ws.length + 4)
    else none
  else none

/-- One attempt of the pattern `\b(\d+)\s*(%|percent|per\s*cent)\b`
(case-insensitive) at the start of `l`, with `prev` the character just
before `l` in the scanned string; returns the matched length. -/
def pctMatchLen (prev : Option Char) (l : List Char) : Option Nat :=
  if (match prev with | some p => isWordChar p | none => false) then none
  else
    let ds := l.takeWhile (·.isDigit)
    if ds = [] then none
    else
      let rest1 := l.dropWhile (·.isDigit)
      let ws := rest1.takeWhile pyWs
      let rest2 := rest1.dropWhile pyWs
      pctAlt (ds.length + ws.length) rest2

/-- Left-to-right scan of `re.sub` for the percent pattern, replacing each
match by the placeholder `<<NUMPCT>>` and resuming after the match. -/
def pctSubGo : Nat → Option Char → List Char → List Char
  | 0, _, l => l
  | _, _, [] => []
  | fuel + 1, prev, c :: rest =>
    match pctMatchLen prev (c :: rest) with
    | some n =>
      "<<NUMPCT>>".data ++
        pctSubGo fuel (((c :: rest).take n).getLast?) ((c :: rest).drop n)
    | none => c :: pctSubGo fuel (some c) rest

/-- `re.sub(r"\b(\d+)\s*(%|percent|per\s*cent)\b", "<<NUMPCT>>", f, IGNORECASE)`. -/
def pctSub (l : List Char) : List Char := pctSubGo l.length none l

/-- `normalize_fragment` from the source: `normalize_text`, then ellipsis
canonicalization, trailing-ellipsis stripping with a final strip, then the
percent-placeholder substitution. -/
def normalize_fragment (f : List Char) : List Char :=
  pctSub (pyStrip (stripTrailingEllipsis (dotsSub (normalize_text f))))

example : normalize_fragment "...".data = [] := by decide

example : normalize_fragment "a 30 per cent rise".data = "a <<NUMPCT>> rise".data := by
  decide

example : normalize_fragment "a 30 percent rise".data = "a <<NUMPCT>> rise".data := by
  decide

example : normalize_fragment "a 30% rise".data = "a 30% rise".data := by decide

example : normalize_fragment "cut by 15%ages".data = "cut by <<NUMPCT>>ages".data := by
  decide

example : normalize_fragment "the economy ... grew strongly".data
    = "the economy ... grew strongly".data := by decide

example : dotsSub "a….....b..c".data = "a......b..c".data := by decide

/-! ### Strategy 1: direct search -/

/-- Python `str.find`: index of the leftmost occurrence of `need` in
`hay`, `none` when absent; searching for the empty string yields `0`. -/
def strFind (hay need : List Char) : Option Nat :=
  if need.isPrefixOf hay then some 0
  else
    match hay with
    | [] => none
    | _ :: t => (strFind t need).map (· + 1)

/-- `direct_search` from the source: exact leftmost substring search, then
a case-insensitive retry; spans are `(i, i + len(frag))`. -/
def direct_search (body frag : List Char) : Option (Nat × Nat) :=
  match strFind body frag with
  | some i => some (i, i + frag.length)
  | none =>
    match strFind (lowerL body) (lowerL frag) with
    | some i => some (i, i + frag.length)
    | none => none

example : direct_search "say hello world now".data "Hello World".data = some (4, 15) := by
  decide

example : direct_search "xyz".data ([] : List Char) = some (0, 0) := by decide

/-! ### Strategy 3: gapped-regex search

`build_regex` manipulates a pattern *string* (escape, whitespace-class
substitution, placeholder substitution) and then compiles it.  The
compilation is modelled by a parser into a small regex AST covering the
constructs reachable from `build_regex` output, and a complete
backtracking matcher with the `IGNORECASE` and `DOTALL` semantics of the
compiled pattern. -/

/-- The characters escaped by `re.escape` in Python 3.7+ — note that this
includes the space character. -/
def reEscapeSet : List Char :=
  ['(', ')', '[', ']', '{', '}', '?', '*', '+', '-', '|', '^', '$', '\\',
   '.', '&', '~', '#', ' ', '\t', '\n', '\x0d', '\x0b', '\x0c']

/-- `re.escape` on the pattern-string level. -/
def pyReEscape (l : List Char) : List Char :=
  (l.map fun c => if c ∈ reEscapeSet then ['\\', c] else [c]).flatten

/-- The replacement text of `re.sub(r"\s+", r"[\\s,;:–—-]+", ep)`. -/
def wsClassChars : List Char := "[\\s,;:–—-]+".data

/-- Replace each maximal whitespace run of the pattern string by the
whitespace/punctuation character class. -/
def wsSubGo : Bool → List Char → List Char
  | _, [] => []
  | b, c :: rest =>
    if pyWs c then
      if b then wsSubGo true rest else wsClassChars ++ wsSubGo true rest
    else c :: wsSubGo false rest

def wsClassSub (l : List Char) : List Char := wsSubGo false l

def numpctPat : List Char := "<<NUMPCT>>".data

def numpctRep : List Char := "(?:\\d+\\s*(?:%|percent|per\\s*cent))".data

/-- `ep.replace("<<NUMPCT>>", ...)`: left-to-right, non-overlapping. -/
def numpctGo : Nat → List Char → List Char
  | 0, l => l
  | _, [] => []
  | fuel + 1, c :: rest =>
    if numpctPat.isPrefixOf (c :: rest) then
      numpctRep ++ numpctGo fuel ((c :: rest).drop numpctPat.length)
    else c :: numpctGo fuel rest

def numpctReplace (l : List Char) : List Char := numpctGo l.length l

/-- Python `nf.split("...")`. -/
def splitOnGo : Nat → List Char → List Char → List (List Char)
  | 0, acc, l => [acc.reverse ++ l]
  | _, acc, [] => [acc.reverse]
  | fuel + 1, acc, c :: rest =>
    if ('.' :: '.' :: '.' :: []).isPrefixOf (c :: rest) then
      acc.reverse :: splitOnGo fuel [] ((c :: rest).drop 3)
    else splitOnGo fuel (c :: acc) rest

def splitOnDots (l : List Char) : List (List Char) := splitOnGo l.length [] l

example : splitOnDots "a... ...b".data = ["a".data, " ".data, "b".data] := by decide

example : splitOnDots "......".data = [[], [], []] := by decide

/-- Items of a (non-negated) character class. -/
inductive RCItem where
  | ws : RCItem
  | dig : RCItem
  | ch (c : Char) : RCItem
deriving DecidableEq, Repr

/-- A token of the compiled pattern: an atom with its quantifier bounds
`lo`/`hi` (`none` = unbounded) and laziness flag.  Groups are always
matched exactly once (the generated patterns never quantify a group). -/
inductive RTok where
  | lit (c : Char) (lo : Nat) (hi : Option Nat) (lz : Bool)
  | cls (items : List RCItem) (lo : Nat) (hi : Option Nat) (lz : Bool)
  | dot (lo : Nat) (hi : Option Nat) (lz : Bool)
  | group (alts : List (List RTok))
deriving Repr

def natOfDigits (ds : List Char) : Nat :=
  ds.foldl (fun n c => n * 10 + (c.toNat - 48)) 0

/-- Parse `{m}`, `{m,}` or `{m,n}` after the opening brace. -/
def parseBraceQuant (l : List Char) : Option (Nat × Option Nat × List Char) :=
  let ds := l.takeWhile (·.isDigit)
  if ds = [] then none
  else
    let lo := natOfDigits ds
    match l.dropWhile (·.isDigit) with
    | '}' :: r' => some (lo, some lo, r')
    | ',' :: r2 =>
      (let ds2 := r2.takeWhile (·.isDigit)
       match r2.dropWhile (·.isDigit) with
       | '}' :: r' => some (lo, if ds2 = [] then none else some (natOfDigits ds2), r')
       | _ => none)
    | _ => none

def lazyAdj (lo : Nat) (hi : Option Nat) (r : List Char) :
    Nat × Option Nat × Bool × List Char :=
  match r with
  | '?' :: r' => (lo, hi, true, r')
  | _ => (lo, hi, false, r)

/-- Parse an optional quantifier (`+`, `*`, `?`, `{m,n}`, each optionally
lazy); without one, the atom is matched exactly once. -/
def parseQuant (l : List Char) : Nat × Option Nat × Bool × List Char :=
  match l with
  | '+' :: r => lazyAdj 1 none r
  | '*' :: r => lazyAdj 0 none r
  | '?' :: r => lazyAdj 0 (some 1) r
  | '{' :: r =>
    (match parseBraceQuant r with
     | some (lo, hi, r') => lazyAdj lo hi r'
     | none => (1, some 1, false, l))
  | _ => (1, some 1, false, l)

/-- True when a quantifier follows, used to reject quantified groups. -/
def quantAhead (l : List Char) : Bool :=
  match l with
  | '+' :: _ => true
  | '*' :: _ => true
  | '?' :: _ => true
  | '{' :: r => (parseBraceQuant r).isSome
  | _ => false

/-- Scan for the `)` closing the current group (depth-aware, skipping
backslash escapes); returns the group content and the remainder. -/
def splitGroupGo : Nat → Nat → List Char → List Char → Option (List Char × List Char)
  | 0, _, _, _ => none
  | _ + 1, _, _, [] => none
  | f + 1, depth, acc, '\\' :: c :: r => splitGroupGo f depth (c :: '\\' :: acc) r
  | f + 1, depth, acc, '(' :: r => splitGroupGo f (depth + 1) ('(' :: acc) r
  | f + 1, depth, acc, ')' :: r =>
    if depth = 0 then some (acc.reverse, r) else splitGroupGo f (depth - 1) (')' :: acc) r
  | f + 1, depth, acc, c :: r => splitGroupGo f depth (c :: acc) r

/-- Split group content on top-level `|`. -/
def splitAltsGo : Nat → Nat → List Char → List Char → List (List Char)
  | 0, _, acc, l => [acc.reverse ++ l]
  | _ + 1, _, acc, [] => [acc.reverse]
  | f + 1, depth, acc, '\\' :: c :: r => splitAltsGo f depth (c :: '\\' :: acc) r
  | f + 1, depth, acc, '(' :: r => splitAltsGo f (depth + 1) ('(' :: acc) r
  | f + 1, depth, acc, ')' :: r => splitAltsGo f (depth - 1) (')' :: acc) r
  | f + 1, depth, acc, '|' :: r =>
    if depth = 0 then acc.reverse :: splitAltsGo f depth [] r
    else splitAltsGo f depth ('|' :: acc) r
  | f + 1, depth, acc, c :: r => splitAltsGo f depth (c :: acc) r

/-- Parse the items of a character class up to the closing `]`. -/
def parseClsItems : Nat → List Char → Option (List RCItem × List Char)
  | 0, _ => none
  | _ + 1, [] => none
  | _ + 1, ']' :: r => some ([], r)
  | f + 1, '\\' :: c :: r =>
    (if c = 's' then some RCItem.ws
     else if c = 'd' then some RCItem.dig
     else if c.isAlpha then none
     else some (RCItem.ch c)).bind fun item =>
      (parseClsItems f r).map fun (items, r') => (item :: items, r')
  | f + 1, c :: r =>
    (parseClsItems f r).map fun (items, r') => (RCItem.ch c :: items, r')

/-- Recursive-descent parser for the pattern subset `build_regex` can
emit; `none` plays the role of `re.error`. -/
def parseSeq : Nat → List Char → Option (List RTok)
  | 0, _ => none
  | _ + 1, [] => some []
  | f + 1, '\\' :: c :: r =>
    if c = 's' then
      (let (lo, hi, lz, r') := parseQuant r
       (parseSeq f r').map (RTok.cls [RCItem.ws] lo hi lz :: ·))
    else if c = 'd' then
      (let (lo, hi, lz, r') := parseQuant r
       (parseSeq f r').map (RTok.cls [RCItem.dig] lo hi lz :: ·))
    else if c.isAlpha || c.isDigit then none
    else
      (let (lo, hi, lz, r') := parseQuant r
       (parseSeq f r').map (RTok.lit c lo hi lz :: ·))
  | _ + 1, ['\\'] => none
  | f + 1, '[' :: r =>
    (match parseClsItems f r with
     | some (items, r') =>
       if items = [] then none
       else
         let (lo, hi, lz, r'') := parseQuant r'
         (parseSeq f r'').map (RTok.cls items lo hi lz :: ·)
     | none => none)
  | f + 1, '(' :: '?' :: ':' :: r =>
    (match splitGroupGo (r.length + 1) 0 [] r with
     | some (content, rest) =>
       (match (splitAltsGo (content.length + 1) 0 [] content).mapM (parseSeq f) with
        | some alts =>
          if quantAhead rest then none
          else (parseSeq f rest).map (RTok.group alts :: ·)
        | none => none)
     | none => none)
  | _ + 1, '(' :: _ => none
  | f + 1, '.' :: r =>
    (let (lo, hi, lz, r') := parseQuant r
     (parseSeq f r').map (RTok.dot lo hi lz :: ·))
  | _ + 1, ')' :: _ => none
  | _ + 1, '|' :: _ => none
  | _ + 1, '^' :: _ => none
  | _ + 1, '$' :: _ => none
  | _ + 1, '+' :: _ => none
  | _ + 1, '*' :: _ => none
  | _ + 1, '?' :: _ => none
  | f + 1, c :: r =>
    (let (lo, hi, lz, r') := parseQuant r
     (parseSeq f r').map (RTok.lit c lo hi lz :: ·))

/-- Case-insensitive (ASCII) character comparison, the `IGNORECASE` flag. -/
def litMatch (x c : Char) : Bool := x.toLower == c.toLower

def citemMatch (i : RCItem) (c : Char) : Bool :=
  match i with
  | .ws => pyWs c
  | .dig => c.isDigit
  | .ch x => litMatch x c

def clsMatch (items : List RCItem) (c : Char) : Bool := items.any (citemMatch · c)

/-- Length of the longest prefix of `l` whose characters all satisfy `p`. -/
def leadCount (p : Char → Bool) (l : List Char) : Nat := (l.takeWhile p).length

/-- Repetition counts to try, in backtracking priority order: a lazy
quantifier tries small counts first, a greedy one large counts first;
`m` is the longest run the atom can consume here. -/
def countsFor (lo : Nat) (hi : Option Nat) (lz : Bool) (m : Nat) : List Nat :=
  let h := match hi with | some h => min h m | none => m
  if lo ≤ h then
    (if lz then List.range' lo (h - lo + 1) else (List.range' lo (h - lo + 1)).reverse)
  else []

/-- Complete backtracking matcher: all suffixes remaining after a match of
`toks` against a prefix of `s`, in backtracking priority order (so the
head is the remainder of the match Python's engine reports).  The fuel
exceeds the pattern-string length, which bounds the recursion depth: every
step either consumes a token parsed from at least one pattern character or
replaces a group token by one alternative parsed from strictly fewer
pattern characters. -/
def matchToks : Nat → List RTok → List Char → List (List Char)
  | 0, _, _ => []
  | _ + 1, [], s => [s]
  | fuel + 1, t :: ts, s =>
    match t with
    | .lit c lo hi lz =>
      (countsFor lo hi lz (leadCount (litMatch c) s)).flatMap fun k =>
        matchToks fuel ts (s.drop k)
    | .cls items lo hi lz =>
      (countsFor lo hi lz (leadCount (clsMatch items) s)).flatMap fun k =>
        matchToks fuel ts (s.drop k)
    | .dot lo hi lz =>
      (countsFor lo hi lz s.length).flatMap fun k =>
        matchToks fuel ts (s.drop k)
    | .group alts =>
      alts.flatMap fun alt => matchToks fuel (alt ++ ts) s

/-- A compiled pattern: the token list plus the matcher fuel derived from
the pattern-string length. -/
structure CompiledRe where
  toks : List RTok
  fuel : Nat

/-- `rgx.search`: scan start positions left to right; the first position
with a match wins, and the engine's preferred match end is taken. -/
def searchFrom (toks : List RTok) (fuel : Nat) : Nat → List Char → Option (Nat × Nat)
  | i, [] =>
    (match matchToks fuel toks [] with
     | r :: _ => some (i, i + (0 - r.length))
     | [] => none)
  | i, c :: t =>
    (match matchToks fuel toks (c :: t) with
     | r :: _ => some (i, i + ((c :: t).length - r.length))
     | [] => searchFrom toks fuel (i + 1) t)

def reSearch (c : CompiledRe) (body : List Char) : Option (Nat × Nat) :=
  searchFrom c.toks c.fuel 0 body

def gapChars : List Char := ".{0,280}?".data

def joinGap : List (List Char) → List Char
  | [] => []
  | [p] => p
  | p :: rest => p ++ gapChars ++ joinGap rest

/-- `build_regex` from the source: split the normalized fragment on the
ellipsis marker, escape each part, substitute the whitespace class and the
percent placeholder at the pattern-string level, join with the bounded
non-greedy gap, and compile; `none` on empty parts or a parse failure. -/
def build_regex (nf : List Char) : Option CompiledRe :=
  let parts := (splitOnDots nf).filter (· ≠ [])
  if parts = [] then none
  else
    let esc := parts.map fun p => numpctReplace (wsClassSub (pyReEscape (normalize_text p)))
    let pattern := joinGap esc
    match parseSeq (pattern.length + 1) pattern with
    | some toks => some ⟨toks, pattern.length + 2⟩
    | none => none

/-- The regex strategy as used in the match loop. -/
def regex_search (body nf : List Char) : Option (Nat × Nat) :=
  match build_regex nf with
  | some rgx => reSearch rgx body
  | none => none

example : regex_search "say hello".data "hello".data = some (4, 9) := by decide

example : regex_search "around 25 per  cent!".data "<<NUMPCT>>".data = some (7, 19) := by
  decide

example : regex_search "a 30 per cent rise".data "a 30% rise".data = none := by decide

example :
    regex_search "a[ ,;:–—-]30%[\t,;:–—-]rise".data "a 30% rise".data
      = some (0, 26) := by decide

example :
    regex_search "the economy, analysts say, grew strongly last year".data
      "Economy ... strongly".data = some (4, 40) := by decide

example :
    regex_search "the economy, analysts say, grew strongly last year".data
      "the economy ... grew strongly".data = none := by decide

/-! ### Strategy 4: fuzzy anchor search

`SequenceMatcher(None, a, b).ratio()` from `difflib`, embedded exactly:
`2 * M / (len(a) + len(b))` where `M` is the total size of the matching
blocks found by the recursive longest-matching-block decomposition, with
the `autojunk` popularity heuristic for `len(b) >= 200`.  The float ratio
and the `0.80` threshold are modelled as exact rationals. -/

/-- The `b2j` index: for each character of `b`, its positions in ascending
order. -/
def b2jInsert (m : List (Char × List Nat)) (c : Char) (j : Nat) :
    List (Char × List Nat) :=
  match m with
  | [] => [(c, [j])]
  | (c', js) :: rest =>
    if c' = c then (c', js ++ [j]) :: rest else (c', js) :: b2jInsert rest c j

def b2jBuild (b : List Char) : List (Char × List Nat) :=
  b.enum.foldl (fun m p => b2jInsert m p.2 p.1) []

/-- `autojunk`: for `len(b) >= 200`, characters occurring more than
`len(b) // 100 + 1` times are dropped from the index (they stay out of the
junk set, so the extension loops still cross them). -/
def b2jWithJunk (b : List Char) : List (Char × List Nat) :=
  let m := b2jBuild b
  if 200 ≤ b.length then
    let ntest := b.length / 100 + 1
    m.filter fun p => p.2.length ≤ ntest
  else m

def b2jGet (m : List (Char × List Nat)) (c : Char) : List Nat :=
  match m.find? (fun p => p.1 = c) with
  | some p => p.2
  | none => []

/-- State of `find_longest_match`'s inner scan: the run-length table for
the current row and the best block found so far. -/
structure FlmSt where
  j2len : List (Nat × Nat)
  bi : Nat
  bj : Nat
  len : Nat

/-- `find_longest_match` main dynamic scan, one row per index of `a`. -/
def flmRow (st : FlmSt) (i : Nat) (js : List Nat) : FlmSt :=
  let folded := js.foldl
    (fun (p : List (Nat × Nat) × Nat × Nat × Nat) j =>
      let (nj, bi, bj, bs) := p
      let prev := if j = 0 then 0 else ((st.j2len.lookup (j - 1)).getD 0)
      let k := prev + 1
      (nj ++ [(j, k)],
        if bs < k then (i + 1 - k, j + 1 - k, k) else (bi, bj, bs)))
    ([], st.bi, st.bj, st.len)
  ⟨folded.1, folded.2.1, folded.2.2.1, folded.2.2.2⟩

def flmCore (a : List Char) (m : List (Char × List Nat))
    (alo ahi blo bhi : Nat) : Nat × Nat × Nat :=
  let final := (List.range' alo (ahi - alo)).foldl
    (fun st i =>
      let js := (b2jGet m (a.getD i ' ')).filter fun j => blo ≤ j && j < bhi
      flmRow st i js)
    ⟨[], alo, blo, 0⟩
  (final.bi, final.bj, final.len)

def charsEq (a b : List Char) (i j : Nat) : Bool :=
  match a.get? i, b.get? j with
  | some x, some y => x = y
  | _, _ => false

/-- The non-junk left-extension loop of `find_longest_match`. -/
def extendLeftGo (a b : List Char) (alo blo : Nat) :
    Nat → Nat × Nat × Nat → Nat × Nat × Nat
  | 0, st => st
  | fuel + 1, (bi, bj, k) =>
    if alo < bi && blo < bj && charsEq a b (bi - 1) (bj - 1) then
      extendLeftGo a b alo blo fuel (bi - 1, bj - 1, k + 1)
    else (bi, bj, k)

/-- The non-junk right-extension loop of `find_longest_match`. -/
def extendRightGo (a b : List Char) (ahi bhi : Nat) :
    Nat → Nat × Nat × Nat → Nat × Nat × Nat
  | 0, st => st
  | fuel + 1, (bi, bj, k) =>
    if bi + k < ahi && bj + k < bhi && charsEq a b (bi + k) (bj + k) then
      extendRightGo a b ahi bhi fuel (bi, bj, k + 1)
    else (bi, bj, k)

/-- `find_longest_match` with `isjunk = None`: dynamic scan plus both
non-junk extension loops (the junk loops are vacuous). -/
def flm (a b : List Char) (m : List (Char × List Nat))
    (alo ahi blo bhi : Nat) : Nat × Nat × Nat :=
  let core := flmCore a m alo ahi blo bhi
  let left := extendLeftGo a b alo blo (a.length + 1) core
  extendRightGo a b ahi bhi (a.length + 1) left

/-- Total size of the matching blocks: recursive decomposition around each
longest block, as in `get_matching_blocks` (block order and adjacent-block
merging do not change the total). -/
def smTotalGo (a b : List Char) (m : List (Char × List Nat)) :
    Nat → Nat → Nat → Nat → Nat → Nat
  | 0, _, _, _, _ => 0
  | fuel + 1, alo, ahi, blo, bhi =>
    match flm a b m alo ahi blo bhi with
    | (bi, bj, k) =>
      if k = 0 then 0
      else
        k + smTotalGo a b m fuel alo bi blo bj
          + smTotalGo a b m fuel (bi + k) ahi (bj + k) bhi

def smTotal (a b : List Char) : Nat :=
  smTotalGo a b (b2jWithJunk b) (a.length + b.length + 1) 0 a.length 0 b.length

/-- `SequenceMatcher(None, a, b).ratio()` as an exact fraction
`(numerator, denominator) = (2 * M, len(a) + len(b))`; the empty/empty
case is `1.0`.  Ratios are only ever compared, so the fraction
representation with cross-multiplied comparisons models the float value
exactly. -/
def smRatio (a b : List Char) : Nat × Nat :=
  if a.length + b.length = 0 then (1, 1)
  else (2 * smTotal a b, a.length + b.length)

/-- `x < y` on ratio fractions (positive denominators). -/
def ratioLt (x y : Nat × Nat) : Bool := x.1 * y.2 < y.1 * x.2

example : smRatio "abcd".data "bcde".data = (6, 8) := by decide

example : smRatio "hello".data "hello".data = (10, 10) := by decide

example : smTotal "abcab".data "cabab".data = 3 := by decide

example : smTotal "kitten".data "sitting".data = 4 := by decide

example : smTotal "aabbccdd".data "ddccbbaa".data = 2 := by decide

example : smTotal "xyzzy".data "zzyxy".data = 3 := by decide

example :
    smTotal "the economy ... grew strongly".data
      "the economy, analysts say, gr".data = 15 := by decide

/-- `re.sub(r"^[^A-Za-z0-9]+", "", nf)`. -/
def stripLeadingNonAlnum (l : List Char) : List Char :=
  l.dropWhile fun c => ! isAsciiAlnum c

/-- `re.finditer` positions of a literal pattern: leftmost,
non-overlapping. -/
def finditerGo (pat : List Char) : Nat → Nat → List Char → List Nat
  | 0, _, _ => []
  | fuel + 1, i, s =>
    if pat.isPrefixOf s then
      i :: finditerGo pat fuel (i + pat.length) (s.drop pat.length)
    else
      match s with
      | [] => []
      | _ :: t => finditerGo pat fuel (i + 1) t

def finditerPositions (pat hay : List Char) : List Nat :=
  if pat = [] then [] else finditerGo pat (hay.length + 1) 0 hay

example : finditerPositions "aa".data "aaaa".data = [0, 2] := by decide

/-- `int(len(nf) * 1.4)`: for the input sizes in play the float product
truncates to `14 * n / 10`. -/
def windowLen (n : Nat) : Nat := 14 * n / 10

/-- The similarity score of the window at `pos`: normalize the `1.4x`
window and compare its truncation against the normalized fragment. -/
def fuzzyRatio (body nf target : List Char) (pos : Nat) : Nat × Nat :=
  smRatio target
    ((collapseWs (lowerL ((body.drop pos).take (windowLen nf.length)))).take
      target.length)

/-- One candidate evaluation of the fuzzy loop: score the window at
`pos` and keep the strictly better candidate (`ratio > best[0]`). -/
def fuzzyStep (body nf target : List Char)
    (best : Option ((Nat × Nat) × Nat × Nat)) (pos : Nat) :
    Option ((Nat × Nat) × Nat × Nat) :=
  match best with
  | none => some (fuzzyRatio body nf target pos, pos, pos + nf.length)
  | some b =>
    if ratioLt b.1 (fuzzyRatio body nf target pos) then
      some (fuzzyRatio body nf target pos, pos, pos + nf.length)
    else some b

/-- `fuzzy_search` from the source: anchor on the first eight characters
of the normalized fragment, score every anchor occurrence with a
sequence-similarity ratio over a `1.4x` window, keep the best, accept at
ratio `>= 0.80`; every candidate span is `(pos, pos + len(nf))`. -/
def fuzzy_search (body nf : List Char) : Option (Nat × Nat) :=
  let anchor := lowerL ((stripLeadingNonAlnum nf).take 8)
  if anchor = [] then none
  else
    let positions := finditerPositions anchor (lowerL body)
    let target := collapseWs (lowerL nf)
    let best := positions.foldl (fuzzyStep body nf target) none
    match best with
    | some (r, s, e) => if 4 * r.2 ≤ 5 * r.1 then some (s, e) else none
    | none => none

example : fuzzy_search "say hello world now".data "hello world".data = some (4, 15) := by
  decide

/-! ### The strategy cascade -/

/-- The span-location cascade of the match loop: direct exact search on
the raw fragment, direct search on the normalized fragment, gapped-regex
search, fuzzy anchor search. -/
def locate (body frag : List Char) : Option (Nat × Nat) :=
  let nf := normalize_fragment frag
  match direct_search body frag with
  | some sp => some sp
  | none =>
    match direct_search body nf with
    | some sp => some sp
    | none =>
      match regex_search body nf with
      | some sp => some sp
      | none => fuzzy_search body nf

example : locate "say hello world now".data "hello world".data = some (4, 15) := by
  decide

example : locate "xyz".data "...".data = some (0, 0) := by decide

example : locate "a 30 per cent rise".data "a 30% rise".data = none := by decide

example :
    locate "...the economy, analysts say, grew strongly last year".data
      "the economy ... grew strongly".data = none := by decide

/-! ### Overlap merging -/

/-- A highlight label: `(theme, meso, model)`, the dictionary key of the
sweep. -/
abbrev Label := String × String × String

/-- An element of the `matches` list: `(start, end, label)`. -/
abbrev Span := Nat × Nat × Label

/-- A merged segment: `(start, end, label set)`. -/
abbrev Seg := Nat × Nat × Finset Label

/-- A sweep event; the active dictionary of per-label counts is modelled
as a multiset (increment = insert, guarded decrement-and-pop = erase). -/
structure Ev where
  pos : Nat
  isStart : Bool
  lab : Label
deriving DecidableEq, Repr

def events (ms : List Span) : List Ev :=
  ms.flatMap fun sp => [⟨sp.1, true, sp.2.2⟩, ⟨sp.2.1, false, sp.2.2⟩]

/-- The sort key `(pos, -kind)`: at equal positions, start events order
before end events. -/
def evKey (e : Ev) : Nat := 2 * e.pos + (if e.isStart then 0 else 1)

def evLe (x y : Ev) : Prop := evKey x ≤ evKey y

instance : DecidableRel evLe := fun _ _ => Nat.decLe _ _

instance : IsTotal Ev evLe := ⟨fun _ _ => Nat.le_total _ _⟩

instance : IsTrans Ev evLe := ⟨fun _ _ _ h h' => Nat.le_trans h h'⟩

/-- Sweep state: active label multiset, last event position, emitted
segments. -/
@[ext]
structure MState where
  active : Multiset Label
  last : Option Nat
  segs : List Seg
deriving DecidableEq

/-- One sweep step: emit a segment for `[last, pos)` when the position
advanced and some label is active, then apply the event to the active
multiset. -/
def stepEv (st : MState) (e : Ev) : MState :=
  let segs :=
    match st.last with
    | some l =>
      if l < e.pos ∧ st.active ≠ 0 then st.segs ++ [(l, e.pos, st.active.toFinset)]
      else st.segs
    | none => st.segs
  { active := if e.isStart then e.lab ::ₘ st.active else st.active.erase e.lab
    last := some e.pos
    segs := segs }

/-- `merge_overlaps` from the source: sort the events by `(pos, -kind)`
and sweep. -/
def merge_overlaps (ms : List Span) : List Seg :=
  ((List.insertionSort evLe (events ms)).foldl stepEv ⟨0, none, []⟩).segs

example :
    merge_overlaps [(0, 10, ("a", "a", "A")), (5, 15, ("b", "b", "B"))] =
      [(0, 5, {("a", "a", "A")}),
       (5, 10, {("a", "a", "A"), ("b", "b", "B")}),
       (10, 15, {("b", "b", "B")})] := by decide

example :
    merge_overlaps [(0, 5, ("t", "m", "M")), (5, 10, ("t", "m", "M"))] =
      [(0, 5, {("t", "m", "M")}), (5, 10, {("t", "m", "M")})] := by decide

example : merge_overlaps [(0, 0, ("t", "m", "M"))] = [] := by decide

/-! ### Sweep invariants: sortedness and disjointness of the output -/

/-- Well-formedness of the emitted segments relative to the last sweep
position: ends are chained below following starts, every segment is
nonempty, and all ends are bounded by the last position. -/
def SegsOk (segs : List Seg) (last : Option Nat) : Prop :=
  List.Chain' (fun x y : Seg => x.2.1 ≤ y.1) segs ∧
  (∀ x ∈ segs, x.1 < x.2.1) ∧
  (match last with
   | some l => ∀ x ∈ segs, x.2.1 ≤ l
   | none => segs = [])

lemma stepEv_ok (st : MState) (e : Ev) (h : SegsOk st.segs st.last)
    (hle : ∀ l, st.last = some l → l ≤ e.pos) :
    SegsOk (stepEv st e).segs (some e.pos) := by
  obtain ⟨hch, hlt, hub⟩ := h
  unfold stepEv
  cases hlast : st.last with
  | none =>
    rw [hlast] at hub
    simp only [hlast]
    refine ⟨?_, ?_, ?_⟩ <;> simp [hub]
  | some l =>
    rw [hlast] at hub
    have hl : l ≤ e.pos := hle l hlast
    simp only [hlast]
    by_cases hc : l < e.pos ∧ st.active ≠ 0
    · rw [if_pos hc]
      refine ⟨?_, ?_, ?_⟩
      · rw [List.chain'_append]
        refine ⟨hch, List.chain'_singleton _, ?_⟩
        intro x hx y hy
        simp only [List.head?_cons, Option.mem_def, Option.some.injEq] at hy
        subst hy
        exact hub x (List.mem_of_mem_getLast? hx)
      · intro x hx
        rcases List.mem_append.mp hx with hx | hx
        · exact hlt x hx
        · simp only [List.mem_singleton] at hx
          subst hx
          exact hc.1
      · intro x hx
        rcases List.mem_append.mp hx with hx | hx
        · exact le_trans (hub x hx) hl
        · simp only [List.mem_singleton] at hx
          subst hx
          exact le_refl _
    · rw [if_neg hc]
      exact ⟨hch, hlt, fun x hx => le_trans (hub x hx) hl⟩

lemma foldl_stepEv_ok : ∀ (evs : List Ev) (st : MState),
    SegsOk st.segs st.last →
    (∀ e ∈ evs, ∀ l, st.last = some l → l ≤ e.pos) →
    List.Pairwise (fun x y : Ev => x.pos ≤ y.pos) evs →
    SegsOk ((evs.foldl stepEv st).segs) ((evs.foldl stepEv st).last) := by
  intro evs
  induction evs with
  | nil => intro st h _ _; exact h
  | cons e rest ih =>
    intro st h hle hpw
    rw [List.pairwise_cons] at hpw
    obtain ⟨hhd, hpw'⟩ := hpw
    rw [List.foldl_cons]
    have h' : SegsOk ((stepEv st e).segs) ((stepEv st e).last) := by
      have := stepEv_ok st e h (fun l hl => hle e (List.mem_cons_self _ _) l hl)
      simpa [stepEv] using this
    refine ih (stepEv st e) h' ?_ hpw'
    intro e' he' l hl
    have : (stepEv st e).last = some e.pos := rfl
    rw [this] at hl
    cases hl
    exact hhd e' he'

lemma sorted_events_pos (l : List Ev) :
    List.Pairwise (fun x y : Ev => x.pos ≤ y.pos) (List.insertionSort evLe l) := by
  have hs : List.Sorted evLe (List.insertionSort evLe l) := List.sorted_insertionSort evLe l
  refine List.Pairwise.imp ?_ hs
  intro x y hxy
  unfold evLe evKey at hxy
  by_cases hx : x.isStart <;> by_cases hy : y.isStart <;> simp [hx, hy] at hxy <;> omega

/-- Helper: the segments of `merge_overlaps` are chained (each end at or
before the following start) and each is nonempty. -/
lemma merge_overlaps_chain (ms : List Span) :
    List.Chain' (fun x y : Seg => x.2.1 ≤ y.1) (merge_overlaps ms) ∧
    ∀ x ∈ merge_overlaps ms, x.1 < x.2.1 := by
  have h := foldl_stepEv_ok (List.insertionSort evLe (events ms)) ⟨0, none, []⟩
    (by refine ⟨List.chain'_nil, ?_, rfl⟩; intro x hx; cases hx)
    (by intro e _ l hl; cases hl)
    (sorted_events_pos (events ms))
  exact ⟨h.1, h.2.1⟩

/-! ### Order-independence of the sweep -/

lemma stepEv_active (st : MState) (e : Ev) :
    (stepEv st e).active =
      if e.isStart then e.lab ::ₘ st.active else st.active.erase e.lab := rfl

lemma stepEv_last (st : MState) (e : Ev) : (stepEv st e).last = some e.pos := rfl

lemma stepEv_segs (st : MState) (e : Ev) :
    (stepEv st e).segs =
      (match st.last with
       | some l =>
         if l < e.pos ∧ st.active ≠ 0 then st.segs ++ [(l, e.pos, st.active.toFinset)]
         else st.segs
       | none => st.segs) := rfl

lemma evKey_eq_parts {x y : Ev} (h : evKey x = evKey y) :
    x.pos = y.pos ∧ x.isStart = y.isStart := by
  unfold evKey at h
  by_cases hx : x.isStart <;> by_cases hy : y.isStart <;>
    simp [hx, hy] at h ⊢ <;> omega

/-- Two events with the same position and kind may be applied in either
order. -/
lemma stepEv_comm (st : MState) {x y : Ev}
    (hpos : x.pos = y.pos) (hkind : x.isStart = y.isStart) :
    stepEv (stepEv st x) y = stepEv (stepEv st y) x := by
  apply MState.ext
  · rw [stepEv_active, stepEv_active, stepEv_active, stepEv_active]
    cases hx : x.isStart
    · have hy : y.isStart = false := by rw [← hkind, hx]
      simp only [hy, Bool.false_eq_true, if_false]
      exact Multiset.erase_comm _ _ _
    · have hy : y.isStart = true := by rw [← hkind, hx]
      simp only [hy, if_true]
      exact Multiset.cons_swap _ _ _
  · rw [stepEv_last, stepEv_last, hpos]
  · have h1 : ¬ (x.pos < y.pos ∧ (stepEv st x).active ≠ 0) := by
      rw [hpos]; intro h; exact absurd h.1 (lt_irrefl _)
    have h2 : ¬ (y.pos < x.pos ∧ (stepEv st y).active ≠ 0) := by
      rw [hpos]; intro h; exact absurd h.1 (lt_irrefl _)
    have e1 : (stepEv (stepEv st x) y).segs =
        if x.pos < y.pos ∧ (stepEv st x).active ≠ 0 then
          (stepEv st x).segs ++ [(x.pos, y.pos, (stepEv st x).active.toFinset)]
        else (stepEv st x).segs := rfl
    have e2 : (stepEv (stepEv st y) x).segs =
        if y.pos < x.pos ∧ (stepEv st y).active ≠ 0 then
          (stepEv st y).segs ++ [(y.pos, x.pos, (stepEv st y).active.toFinset)]
        else (stepEv st y).segs := rfl
    rw [e1, e2, if_neg h1, if_neg h2, stepEv_segs, stepEv_segs, hpos]

/-- Moving a key-minimal event to the front of a sorted event list does
not change the sweep result. -/
lemma foldl_move : ∀ (t : List Ev) (y x : Ev) (st : MState),
    List.Sorted evLe (y :: t) → x ∈ y :: t → evKey x = evKey y →
    (y :: t).foldl stepEv st = ((y :: t).erase x).foldl stepEv (stepEv st x) := by
  intro t
  induction t with
  | nil =>
    intro y x st _ hmem hkey
    simp only [List.mem_singleton] at hmem
    subst hmem
    rw [List.erase_cons_head]
    rfl
  | cons z t2 ih =>
    intro y x st hs hmem hkey
    by_cases hxy : x = y
    · subst hxy
      rw [List.erase_cons_head]
      rfl
    · have hmem' : x ∈ z :: t2 := by
        rcases List.mem_cons.mp hmem with h | h
        · exact absurd h hxy
        · exact h
      have hyz : evLe y z := List.rel_of_sorted_cons hs z (List.mem_cons_self _ _)
      have hzx : evLe z x := by
        rcases List.mem_cons.mp hmem' with h | h
        · subst h; exact le_refl _
        · exact List.rel_of_sorted_cons hs.of_cons x h
      have hkz : evKey x = evKey z :=
        le_antisymm (hkey ▸ hyz) hzx
      have hpartsxy := evKey_eq_parts hkey
      have herase : (y :: z :: t2).erase x = y :: (z :: t2).erase x :=
        List.erase_cons_tail (by simp only [beq_iff_eq]; exact Ne.symm hxy)
      calc (y :: z :: t2).foldl stepEv st
          = (z :: t2).foldl stepEv (stepEv st y) := rfl
        _ = ((z :: t2).erase x).foldl stepEv (stepEv (stepEv st y) x) :=
            ih z x (stepEv st y) hs.of_cons hmem' hkz
        _ = ((z :: t2).erase x).foldl stepEv (stepEv (stepEv st x) y) := by
            rw [stepEv_comm st hpartsxy.1.symm hpartsxy.2.symm]
        _ = (y :: (z :: t2).erase x).foldl stepEv (stepEv st x) := rfl
        _ = ((y :: z :: t2).erase x).foldl stepEv (stepEv st x) := by
            rw [herase]

/-- The sweep over a sorted event list depends only on the event multiset:
two sorted permutations of each other produce the same final state. -/
lemma foldl_perm_sorted : ∀ (n : Nat) (l1 l2 : List Ev) (st : MState),
    l1.length ≤ n → l1.Perm l2 →
    List.Sorted evLe l1 → List.Sorted evLe l2 →
    l1.foldl stepEv st = l2.foldl stepEv st := by
  intro n
  induction n with
  | zero =>
    intro l1 l2 st hlen hp _ _
    have h1 : l1 = [] := List.length_eq_zero.mp (Nat.le_zero.mp hlen)
    subst h1
    have h2 : l2 = [] := hp.nil_eq.symm
    subst h2
    rfl
  | succ n ih =>
    intro l1 l2 st hlen hp hs1 hs2
    cases l1 with
    | nil =>
      have h2 : l2 = [] := hp.nil_eq.symm
      subst h2
      rfl
    | cons x t1 =>
      cases l2 with
      | nil => exact absurd hp.symm.nil_eq (by simp)
      | cons y t2 =>
        have hxmem : x ∈ y :: t2 := hp.mem_iff.mp (List.mem_cons_self _ _)
        have hymem : y ∈ x :: t1 := hp.mem_iff.mpr (List.mem_cons_self _ _)
        have hxy : evLe x y := by
          rcases List.mem_cons.mp hymem with h | h
          · subst h; exact le_refl _
          · exact List.rel_of_sorted_cons hs1 y h
        have hyx : evLe y x := by
          rcases List.mem_cons.mp hxmem with h | h
          · rw [h]; exact le_refl _
          · exact List.rel_of_sorted_cons hs2 x h
        have hkey : evKey x = evKey y := le_antisymm hxy hyx
        have hmv := foldl_move t2 y x st hs2 hxmem hkey
        rw [List.foldl_cons, hmv]
        have hperm : t1.Perm ((y :: t2).erase x) :=
          (List.cons_perm_iff_perm_erase.mp hp).2
        refine ih t1 ((y :: t2).erase x) (stepEv st x) ?_ hperm hs1.of_cons ?_
        · exact Nat.le_of_succ_le_succ hlen
        · exact List.Pairwise.sublist (List.erase_sublist x (y :: t2)) hs2

lemma events_perm {l1 l2 : List Span} (hp : l1.Perm l2) :
    (events l1).Perm (events l2) :=
  List.Perm.flatMap_right _ hp

/-- C7 helper: the sweep is invariant under permutation of the span
list. -/
lemma merge_overlaps_perm (l1 l2 : List Span) (hp : l1.Perm l2) :
    merge_overlaps l1 = merge_overlaps l2 := by
  unfold merge_overlaps
  have h := foldl_perm_sorted (List.insertionSort evLe (events l1)).length
    (List.insertionSort evLe (events l1)) (List.insertionSort evLe (events l2))
    ⟨0, none, []⟩ (le_refl _)
    (((List.perm_insertionSort evLe (events l1)).trans (events_perm hp)).trans
      (List.perm_insertionSort evLe (events l2)).symm)
    (List.sorted_insertionSort evLe (events l1))
    (List.sorted_insertionSort evLe (events l2))
  rw [h]

/-! ### Rendering -/

/-- A piece of rendered output: untouched plain text or a highlight
region wrapping the covered substring, carrying its tooltip and the
selected/normal class.  The visible (tag-stripped) content of a piece is
its text. -/
inductive Piece where
  | plain (t : List Char)
  | mark (t : List Char) (tip : String) (selectedCls : Bool)
deriving DecidableEq, Repr

/-- Python slice `txt[a:b]` for nonnegative indices (clamping). -/
def pysliceD (l : List Char) (a b : Nat) : List Char := (l.drop a).take (b - a)

/-- The label sort key of the tooltip, lexicographic on
`(model, theme, meso)`. -/
def labKey (lab : Label) : Lex (String × Lex (String × String)) :=
  toLex (lab.2.2, toLex (lab.1, lab.2.1))

def labLe (a b : Label) : Prop := labKey a ≤ labKey b

instance : DecidableRel labLe := fun a b => by
  unfold labLe
  exact inferInstanceAs (Decidable (labKey a ≤ labKey b))

instance : IsTrans Label labLe := ⟨fun _ _ _ h h' => le_trans h h'⟩

instance : IsTotal Label labLe := ⟨fun _ _ => le_total _ _⟩

lemma labKey_inj {a b : Label} (h : labKey a = labKey b) : a = b := by
  obtain ⟨th, mn, mdl⟩ := a
  obtain ⟨th', mn', mdl'⟩ := b
  simp only [labKey, toLex_inj, Prod.mk.injEq] at h
  obtain ⟨h1, h2, h3⟩ := h
  subst h1; subst h2; subst h3; rfl

instance : IsAntisymm Label labLe :=
  ⟨fun _ _ h h' => labKey_inj (le_antisymm h h')⟩

def fmtLabel (lab : Label) : String := lab.2.2 ++ " — " ++ lab.1 ++ " — " ++ lab.2.1

/-- The tooltip: labels sorted by `(model, theme, meso)` and joined. -/
def segTip (labs : Finset Label) : String :=
  String.intercalate " | " ((labs.sort labLe).map fmtLabel)

/-- Whether the selected meso narrative occurs among the labels. -/
def segSelected (selected : Option String) (labs : Finset Label) : Bool :=
  match selected with
  | some sel => (labs.sort labLe).any fun lab => lab.2.1 == sel
  | none => false

/-- The render loop: plain gap since the previous end, marked covered
text, repeat; then the plain tail. -/
def renderGo (selected : Option String) (txt : List Char) : Nat → List Seg → List Piece
  | last, [] => [Piece.plain (txt.drop last)]
  | last, sg :: rest =>
    Piece.plain (pysliceD txt last sg.1) ::
      Piece.mark (pysliceD txt sg.1 sg.2.1) (segTip sg.2.2)
        (segSelected selected sg.2.2) ::
      renderGo selected txt sg.2.1 rest

def segLe (a b : Seg) : Prop := a.1 ≤ b.1

instance : DecidableRel segLe := fun _ _ => Nat.decLe _ _

/-- `apply_highlights` from the source: empty segment lists return the
body unchanged, otherwise the segments are sorted by start and walked. -/
def apply_highlights (selected : Option String) (txt : List Char) (segs : List Seg) :
    List Piece :=
  if segs = [] then [Piece.plain txt]
  else renderGo selected txt 0 (List.insertionSort segLe segs)

/-- The visible content of the rendered output: all highlight tags
stripped. -/
def stripPieces (ps : List Piece) : List Char :=
  ps.flatMap fun p =>
    match p with
    | .plain t => t
    | .mark t _ _ => t

/-! ### Content preservation -/

/-- The chain condition under which the render walk reproduces the body:
each segment starts at or after the previous position and is
well-ordered; ends beyond the body length are harmless (Python slices
clamp). -/
def chainFrom : Nat → List Seg → Prop
  | _, [] => True
  | last, sg :: rest => last ≤ sg.1 ∧ sg.1 ≤ sg.2.1 ∧ chainFrom sg.2.1 rest

lemma slice_drop (l : List Char) {a b : Nat} (h : a ≤ b) :
    pysliceD l a b ++ l.drop b = l.drop a := by
  unfold pysliceD
  have hd : l.drop b = (l.drop a).drop (b - a) := by
    rw [List.drop_drop]
    congr 1
    omega
  rw [hd, List.take_append_drop]

lemma renderGo_strip (sel : Option String) (txt : List Char) :
    ∀ (segs : List Seg) (last : Nat), chainFrom last segs →
      stripPieces (renderGo sel txt last segs) = txt.drop last := by
  intro segs
  induction segs with
  | nil =>
    intro last _
    simp [renderGo, stripPieces]
  | cons sg rest ih =>
    intro last hc
    obtain ⟨h1, h2, h3⟩ := hc
    show stripPieces
        (Piece.plain (pysliceD txt last sg.1) ::
          Piece.mark (pysliceD txt sg.1 sg.2.1) (segTip sg.2.2)
            (segSelected sel sg.2.2) :: renderGo sel txt sg.2.1 rest)
      = txt.drop last
    unfold stripPieces
    rw [List.flatMap_cons, List.flatMap_cons]
    show pysliceD txt last sg.1 ++ (pysliceD txt sg.1 sg.2.1 ++
      stripPieces (renderGo sel txt sg.2.1 rest)) = txt.drop last
    rw [ih sg.2.1 h3, slice_drop txt h2, slice_drop txt h1]

lemma chainFrom_of_chain : ∀ (segs : List Seg) (last : Nat),
    List.Chain' (fun x y : Seg => x.2.1 ≤ y.1) segs →
    (∀ x ∈ segs, x.1 < x.2.1) →
    (∀ x, segs.head? = some x → last ≤ x.1) →
    chainFrom last segs := by
  intro segs
  induction segs with
  | nil => intro last _ _ _; trivial
  | cons sg rest ih =>
    intro last hch hlt hhd
    rw [List.chain'_cons'] at hch
    refine ⟨hhd sg rfl, le_of_lt (hlt sg (List.mem_cons_self _ _)), ?_⟩
    refine ih sg.2.1 hch.2 (fun x hx => hlt x (List.mem_cons_of_mem _ hx)) ?_
    intro x hx
    exact hch.1 x hx

lemma chain_imp_sorted : ∀ segs : List Seg,
    List.Chain' (fun x y : Seg => x.2.1 ≤ y.1) segs →
    (∀ x ∈ segs, x.1 < x.2.1) → List.Sorted segLe segs := by
  intro segs
  induction segs with
  | nil => intro _ _; exact List.sorted_nil
  | cons sg rest ih =>
    intro hch hlt
    rw [List.chain'_cons'] at hch
    have hrest : List.Sorted segLe rest :=
      ih hch.2 fun x hx => hlt x (List.mem_cons_of_mem _ hx)
    rw [List.sorted_cons]
    refine ⟨?_, hrest⟩
    intro b hb
    cases rest with
    | nil => cases hb
    | cons h t =>
      have hsg : sg.1 ≤ h.1 :=
        le_trans (le_of_lt (hlt sg (List.mem_cons_self _ _))) (hch.1 h rfl)
      rcases List.mem_cons.mp hb with hb | hb
      · subst hb; exact hsg
      · exact le_trans hsg (List.rel_of_sorted_cons hrest b hb)

/-- C2 helper: rendering the merged segments of any span list over any
body and stripping the highlight tags returns the body exactly. -/
lemma render_strip_eq (selected : Option String) (txt : List Char) (ms : List Span) :
    stripPieces (apply_highlights selected txt (merge_overlaps ms)) = txt := by
  unfold apply_highlights
  by_cases h : merge_overlaps ms = []
  · rw [if_pos h]
    simp [stripPieces]
  · rw [if_neg h]
    obtain ⟨hch, hlt⟩ := merge_overlaps_chain ms
    rw [List.Sorted.insertionSort_eq (chain_imp_sorted _ hch hlt)]
    rw [renderGo_strip selected txt (merge_overlaps ms) 0
      (chainFrom_of_chain _ 0 hch hlt (by intro x _; exact Nat.zero_le _))]
    exact List.drop_zero txt

/-! ### Annotation extraction

`extract_all_model_narratives` reads per-model columns
`annotation_parsed_<model>` whose values are `json.loads` results; the
parsed-JSON domain is modelled by `JVal`, and a row by its list of
`(column, parse result)` pairs (`none` = `safe_json_load` failure). -/

inductive JVal where
  | jnull
  | jbool (b : Bool)
  | jnum (n : Int)
  | jstr (s : String)
  | jarr (xs : List JVal)
  | jobj (fields : List (String × JVal))

/-- `dict.get` on a parsed JSON object: with duplicate keys the last
binding wins, as in `json.loads`. -/
def jGet (fields : List (String × JVal)) (k : String) : Option JVal :=
  ((fields.filter fun p => p.1 == k).getLast?).map (·.2)

/-- Python `str.strip` on `String`. -/
def pyStripS (s : String) : String := ⟨pyStrip s.data⟩

/-- One extracted annotation record. -/
structure Ann where
  fragment : String
  theme : String
  meso : String
  model : String
  has_fragment : Bool
deriving DecidableEq, Repr

/-- Emission test of `extract_all_model_narratives` for one parsed
object: the narrative theme and the meso narrative must be non-empty
strings after stripping; the fragment is optional and only recorded in
`fragment`/`has_fragment`. -/
def annOfObj (model : String) (o : JVal) : Option Ann :=
  match o with
  | .jobj fields =>
    let frag := jGet fields "text fragment"
    let fragStr := match frag with
      | some (.jstr fs) => if pyStripS fs ≠ "" then pyStripS fs else ""
      | _ => ""
    let hasFrag := match frag with
      | some (.jstr fs) => pyStripS fs ≠ ""
      | _ => false
    match jGet fields "narrative theme", jGet fields "meso narrative" with
    | some (.jstr ths), some (.jstr mns) =>
      if pyStripS ths ≠ "" ∧ pyStripS mns ≠ "" then
        some { fragment := fragStr, theme := pyStripS ths, meso := pyStripS mns,
               model := model, has_fragment := hasFrag }
      else none
    | _, _ => none
  | _ => none

def annotationPrefix : String := "annotation_parsed_"

/-- `extract_all_model_narratives` from the source, over the
parsed-payload view of a row: every `annotation_parsed_<model>` column
whose payload is a list contributes its emitted objects, in order. -/
def extract_all_model_narratives (row : List (String × Option JVal)) : List Ann :=
  row.flatMap fun p =>
    if annotationPrefix.data.isPrefixOf p.1.data then
      let model : String := ⟨p.1.data.drop annotationPrefix.data.length⟩
      let annList := match p.2 with
        | some (.jarr xs) => xs
        | _ => []
      annList.filterMap (annOfObj model)
    else []

example :
    extract_all_model_narratives
      [("annotation_parsed_gpt",
        some (.jarr [.jobj [("text fragment", .jstr " frag "),
                            ("narrative theme", .jstr "Th"),
                            ("meso narrative", .jstr "Me")]]))] =
      [⟨"frag", "Th", "Me", "gpt", true⟩] := by decide

example :
    extract_all_model_narratives
      [("annotation_parsed_gpt",
        some (.jarr [.jobj [("narrative theme", .jstr "Th"),
                            ("meso narrative", .jstr "Me")]]))] =
      [⟨"", "Th", "Me", "gpt", false⟩] := by decide

example :
    extract_all_model_narratives
      [("annotation_parsed_gpt", some (.jarr [.jobj [("text fragment", .jstr "x")]]))] =
      [] := by decide

example :
    extract_all_model_narratives [("annotation_parsed_gpt", none), ("body", some (.jstr "b"))]
      = [] := by decide

/-- The emission condition: a given key holds a string that is non-empty
after stripping. -/
def strOkAt (fields : List (String × JVal)) (k : String) : Prop :=
  ∃ s, jGet fields k = some (JVal.jstr s) ∧ pyStripS s ≠ ""

/-- C4 helper: emission depends on theme and meso only. -/
lemma annOfObj_isSome_iff (model : String) (fields : List (String × JVal)) :
    (annOfObj model (JVal.jobj fields)).isSome ↔
      strOkAt fields "narrative theme" ∧ strOkAt fields "meso narrative" := by
  unfold annOfObj strOkAt
  cases hth : jGet fields "narrative theme" with
  | none => simp [hth]
  | some v =>
    cases v with
    | jstr ths =>
      cases hmn : jGet fields "meso narrative" with
      | none => simp [hth, hmn]
      | some w =>
        cases w with
        | jstr mns =>
          by_cases hok : pyStripS ths ≠ "" ∧ pyStripS mns ≠ ""
          · simp only [hth, hmn, if_pos hok]
            constructor
            · intro _
              exact ⟨⟨ths, rfl, hok.1⟩, ⟨mns, rfl, hok.2⟩⟩
            · intro _; rfl
          · simp only [hth, hmn, if_neg hok]
            constructor
            · intro h; cases h
            · intro ⟨⟨s1, hs1, hne1⟩, ⟨s2, hs2, hne2⟩⟩
              rw [Option.some.injEq, JVal.jstr.injEq] at hs1
              rw [Option.some.injEq, JVal.jstr.injEq] at hs2
              subst hs1; subst hs2
              exact absurd ⟨hne1, hne2⟩ hok
        | jnull => simp [hth, hmn]
        | jbool b => simp [hth, hmn]
        | jnum n => simp [hth, hmn]
        | jarr xs => simp [hth, hmn]
        | jobj fs => simp [hth, hmn]
    | jnull => simp [hth]
    | jbool b => simp [hth]
    | jnum n => simp [hth]
    | jarr xs => simp [hth]
    | jobj fs => simp [hth]

/-! ### The metadata table -/

/-- One row of the narratives-metadata table. -/
structure MetaRow where
  idx : Nat
  selected_meso_filter : Bool
  model : String
  theme : String
  meso : String
  fragmentText : String
  fragment_present : Bool
deriving DecidableEq, Repr

/-- One row of the metadata table for the `p.1`-th annotation `p.2`. -/
def metaRowOf (selected : Option String) (p : Nat × Ann) : MetaRow :=
  { idx := p.1
    selected_meso_filter :=
      match selected with
      | some sel => sel == p.2.meso
      | none => false
    model := p.2.model
    theme := p.2.theme
    meso := p.2.meso
    fragmentText := if p.2.has_fragment then p.2.fragment else "[no fragment]"
    fragment_present := p.2.has_fragment }

/-- The `rows` construction of the metadata expander: one row per
annotation, with the `[no fragment]` marker and the `fragment_present`
boolean taken from `has_fragment`. -/
def metaRows (selected : Option String) (anns : List Ann) : List MetaRow :=
  anns.enum.map (metaRowOf selected)

/-! ### Span bounds of the strategies -/

lemma strFind_nil (need : List Char) :
    strFind [] need = if need.isPrefixOf [] then some 0 else none := rfl

lemma strFind_cons (c : Char) (t need : List Char) :
    strFind (c :: t) need =
      if need.isPrefixOf (c :: t) then some 0
      else (strFind t need).map (· + 1) := rfl

lemma strFind_bound : ∀ (hay need : List Char) (i : Nat),
    strFind hay need = some i → i + need.length ≤ hay.length := by
  intro hay
  induction hay with
  | nil =>
    intro need i h
    rw [strFind_nil] at h
    by_cases hp : need.isPrefixOf ([] : List Char)
    · rw [if_pos hp] at h
      cases h
      simpa using List.IsPrefix.length_le (List.isPrefixOf_iff_prefix.mp hp)
    · rw [if_neg hp] at h
      cases h
  | cons c t ih =>
    intro need i h
    rw [strFind_cons] at h
    by_cases hp : need.isPrefixOf (c :: t)
    · rw [if_pos hp] at h
      cases h
      simpa using List.IsPrefix.length_le (List.isPrefixOf_iff_prefix.mp hp)
    · rw [if_neg hp] at h
      cases hf : strFind t need with
      | none => rw [hf] at h; cases h
      | some j =>
        rw [hf] at h
        simp only [Option.map_some', Option.some.injEq] at h
        subst h
        have := ih need j hf
        simp only [List.length_cons]
        omega

lemma lowerL_length (l : List Char) : (lowerL l).length = l.length :=
  List.length_map _ _

lemma direct_search_bound (body frag : List Char) (s e : Nat)
    (h : direct_search body frag = some (s, e)) :
    e = s + frag.length ∧ e ≤ body.length := by
  unfold direct_search at h
  cases h1 : strFind body frag with
  | some i =>
    rw [h1] at h
    simp only [Option.some.injEq, Prod.mk.injEq] at h
    obtain ⟨hs, he⟩ := h
    subst hs; subst he
    exact ⟨rfl, strFind_bound body frag _ h1⟩
  | none =>
    rw [h1] at h
    cases h2 : strFind (lowerL body) (lowerL frag) with
    | some i =>
      rw [h2] at h
      simp only [Option.some.injEq, Prod.mk.injEq] at h
      obtain ⟨hs, he⟩ := h
      subst hs; subst he
      have := strFind_bound _ _ _ h2
      rw [lowerL_length, lowerL_length] at this
      exact ⟨rfl, this⟩
    | none => rw [h2] at h; cases h

lemma matchToks_length : ∀ (fuel : Nat) (toks : List RTok) (s r : List Char),
    r ∈ matchToks fuel toks s → r.length ≤ s.length := by
  intro fuel
  induction fuel with
  | zero => intro toks s r h; simp [matchToks] at h
  | succ f ih =>
    intro toks s r h
    cases toks with
    | nil =>
      simp only [matchToks, List.mem_singleton] at h
      subst h; exact le_refl _
    | cons t ts =>
      cases t with
      | lit c lo hi lz =>
        simp only [matchToks] at h
        rw [List.mem_flatMap] at h
        obtain ⟨k, _, hk⟩ := h
        have h1 := ih ts (s.drop k) r hk
        have h2 : (s.drop k).length ≤ s.length := by
          rw [List.length_drop]; omega
        omega
      | cls items lo hi lz =>
        simp only [matchToks] at h
        rw [List.mem_flatMap] at h
        obtain ⟨k, _, hk⟩ := h
        have h1 := ih ts (s.drop k) r hk
        have h2 : (s.drop k).length ≤ s.length := by
          rw [List.length_drop]; omega
        omega
      | dot lo hi lz =>
        simp only [matchToks] at h
        rw [List.mem_flatMap] at h
        obtain ⟨k, _, hk⟩ := h
        have h1 := ih ts (s.drop k) r hk
        have h2 : (s.drop k).length ≤ s.length := by
          rw [List.length_drop]; omega
        omega
      | group alts =>
        simp only [matchToks] at h
        rw [List.mem_flatMap] at h
        obtain ⟨alt, _, hk⟩ := h
        exact ih (alt ++ ts) s r hk

lemma searchFrom_nil (toks : List RTok) (fuel i : Nat) :
    searchFrom toks fuel i [] =
      (match matchToks fuel toks [] with
       | r :: _ => some (i, i + (0 - r.length))
       | [] => none) := rfl

lemma searchFrom_cons (toks : List RTok) (fuel i : Nat) (c : Char) (t : List Char) :
    searchFrom toks fuel i (c :: t) =
      (match matchToks fuel toks (c :: t) with
       | r :: _ => some (i, i + ((c :: t).length - r.length))
       | [] => searchFrom toks fuel (i + 1) t) := rfl

lemma searchFrom_bound : ∀ (s : List Char) (toks : List RTok) (fuel i a b : Nat),
    searchFrom toks fuel i s = some (a, b) → i ≤ a ∧ a ≤ b ∧ b ≤ i + s.length := by
  intro s
  induction s with
  | nil =>
    intro toks fuel i a b h
    rw [searchFrom_nil] at h
    cases hm : matchToks fuel toks [] with
    | nil => rw [hm] at h; cases h
    | cons r rs =>
      rw [hm] at h
      simp only [Option.some.injEq, Prod.mk.injEq] at h
      obtain ⟨ha, hb⟩ := h
      subst ha; subst hb
      simp
  | cons c t ih =>
    intro toks fuel i a b h
    rw [searchFrom_cons] at h
    cases hm : matchToks fuel toks (c :: t) with
    | cons r rs =>
      rw [hm] at h
      simp only [Option.some.injEq, Prod.mk.injEq] at h
      obtain ⟨ha, hb⟩ := h
      subst ha; subst hb
      refine ⟨le_refl _, Nat.le_add_right _ _, ?_⟩
      simp only [List.length_cons]
      omega
    | nil =>
      rw [hm] at h
      have := ih toks fuel (i + 1) a b h
      simp only [List.length_cons]
      omega

lemma regex_search_bound (body nf : List Char) (s e : Nat)
    (h : regex_search body nf = some (s, e)) : s ≤ e ∧ e ≤ body.length := by
  unfold regex_search at h
  cases hb : build_regex nf with
  | none => rw [hb] at h; cases h
  | some rgx =>
    rw [hb] at h
    have := searchFrom_bound body rgx.toks rgx.fuel 0 s e h
    exact ⟨this.2.1, by omega⟩

lemma finditerGo_bound (pat : List Char) : ∀ (fuel i : Nat) (s : List Char) (j : Nat),
    j ∈ finditerGo pat fuel i s → i ≤ j ∧ j + pat.length ≤ i + s.length := by
  intro fuel
  induction fuel with
  | zero => intro i s j h; simp [finditerGo] at h
  | succ f ih =>
    intro i s j h
    unfold finditerGo at h
    by_cases hp : pat.isPrefixOf s
    · rw [if_pos hp] at h
      have hlen : pat.length ≤ s.length :=
        List.IsPrefix.length_le (List.isPrefixOf_iff_prefix.mp hp)
      rcases List.mem_cons.mp h with h | h
      · subst h; omega
      · have := ih (i + pat.length) (s.drop pat.length) j h
        rw [List.length_drop] at this
        omega
    · rw [if_neg hp] at h
      cases s with
      | nil => simp at h
      | cons c t =>
        have := ih (i + 1) t j h
        simp only [List.length_cons]
        omega

lemma fuzzyStep_fold_shape (body nf target : List Char) (good : Nat → Prop) :
    ∀ (ps : List Nat) (acc : Option ((Nat × Nat) × Nat × Nat)),
      (∀ p ∈ ps, good p) →
      (∀ x, acc = some x → good x.2.1 ∧ x.2.2 = x.2.1 + nf.length) →
      ∀ x, ps.foldl (fuzzyStep body nf target) acc = some x →
        good x.2.1 ∧ x.2.2 = x.2.1 + nf.length := by
  intro ps
  induction ps with
  | nil => intro acc _ hacc x h; exact hacc x h
  | cons p rest ih =>
    intro acc hps hacc x h
    rw [List.foldl_cons] at h
    refine ih (fuzzyStep body nf target acc p)
      (fun q hq => hps q (List.mem_cons_of_mem _ hq)) ?_ x h
    intro y hy
    cases acc with
    | none =>
      have he : fuzzyStep body nf target none p =
          some (fuzzyRatio body nf target p, p, p + nf.length) := rfl
      rw [he] at hy
      simp only [Option.some.injEq] at hy
      subst hy
      exact ⟨hps p (List.mem_cons_self _ _), rfl⟩
    | some b =>
      have he : fuzzyStep body nf target (some b) p =
          if ratioLt b.1 (fuzzyRatio body nf target p) then
            some (fuzzyRatio body nf target p, p, p + nf.length)
          else some b := rfl
      rw [he] at hy
      by_cases hr : ratioLt b.1 (fuzzyRatio body nf target p) = true
      · rw [if_pos hr] at hy
        simp only [Option.some.injEq] at hy
        subst hy
        exact ⟨hps p (List.mem_cons_self _ _), rfl⟩
      · rw [if_neg hr] at hy
        simp only [Option.some.injEq] at hy
        subst hy
        exact hacc b rfl

/-- C9 helper: any span returned by the fuzzy strategy has shape
`(pos, pos + len(nf))` with `pos` an anchor position inside the body. -/
lemma fuzzy_search_shape (body nf : List Char) (s e : Nat)
    (h : fuzzy_search body nf = some (s, e)) :
    e = s + nf.length ∧ s ≤ body.length := by
  unfold fuzzy_search at h
  by_cases ha : lowerL ((stripLeadingNonAlnum nf).take 8) = []
  · rw [if_pos ha] at h; cases h
  · rw [if_neg ha] at h
    dsimp only [] at h
    cases hb : (finditerPositions (lowerL ((stripLeadingNonAlnum nf).take 8)) (lowerL body)).foldl
        (fuzzyStep body nf (collapseWs (lowerL nf))) none with
    | none => rw [hb] at h; cases h
    | some x =>
      rw [hb] at h
      obtain ⟨r, s', e'⟩ := x
      dsimp only [] at h
      by_cases hth : 4 * r.2 ≤ 5 * r.1
      · rw [if_pos hth] at h
        simp only [Option.some.injEq, Prod.mk.injEq] at h
        obtain ⟨hs, he⟩ := h
        have hsh := fuzzyStep_fold_shape body nf (collapseWs (lowerL nf))
          (fun p => p ≤ body.length) _ none ?_ (by intro y hy; cases hy) (r, s', e') hb
        · rw [← hs, ← he]
          exact ⟨hsh.2, hsh.1⟩
        · intro p hp
          unfold finditerPositions at hp
          rw [if_neg ha] at hp
          have := finditerGo_bound _ _ 0 (lowerL body) p hp
          simp only [lowerL_length] at this
          omega
      · rw [if_neg hth] at h
        cases h

/-- C1 helper: the bounds every cascade span satisfies. -/
lemma locate_bound (body frag : List Char) (s e : Nat)
    (h : locate body frag = some (s, e)) :
    s ≤ e ∧ s ≤ body.length ∧
      e ≤ body.length + (normalize_fragment frag).length := by
  unfold locate at h
  dsimp only [] at h
  cases h1 : direct_search body frag with
  | some sp =>
    rw [h1] at h
    simp only [Option.some.injEq] at h
    subst h
    obtain ⟨he, hb⟩ := direct_search_bound body frag s e h1
    omega
  | none =>
    rw [h1] at h
    cases h2 : direct_search body (normalize_fragment frag) with
    | some sp =>
      rw [h2] at h
      simp only [Option.some.injEq] at h
      subst h
      obtain ⟨he, hb⟩ := direct_search_bound body _ s e h2
      omega
    | none =>
      rw [h2] at h
      cases h3 : regex_search body (normalize_fragment frag) with
      | some sp =>
        rw [h3] at h
        simp only [Option.some.injEq] at h
        subst h
        obtain ⟨hse, hb⟩ := regex_search_bound body _ s e h3
        omega
      | none =>
        rw [h3] at h
        obtain ⟨he, hs⟩ := fuzzy_search_shape body _ s e h
        omega

/-! ### Claim theorems -/

/-- C1, counterexample: the cascade does not guarantee
`0 <= start < end <= len(body)`.  The fragment `"..."` normalizes to the
empty string and the normalized direct search returns the zero-width span
`(0, 0)`; the fragment `"abcdefghij"` against the 9-character body
`"abcdefghi"` is accepted by the fuzzy strategy with span `(0, 10)`,
whose end exceeds the body length. -/
theorem c1_counterexample :
    locate "xyz".data "...".data = some (0, 0) ∧
    locate "abcdefghi".data "abcdefghij".data = some (0, 10) ∧
    "abcdefghi".data.length = 9 :=
  ⟨by decide, by decide, by decide⟩

/-- C1 (amended): every span produced by the span-location cascade
satisfies `start <= end`, `start <= len(body)` and
`end <= len(body) + len(normalized fragment)`; strictness of
`start < end` fails for fragments whose normalized form is empty, and
`end <= len(body)` fails for fuzzy spans, which always have length
`len(normalized fragment)` regardless of the body window. -/
theorem c1_span_bounds (body frag : List Char) (s e : Nat)
    (h : locate body frag = some (s, e)) :
    s ≤ e ∧ s ≤ body.length ∧
      e ≤ body.length + (normalize_fragment frag).length :=
  locate_bound body frag s e h

theorem c1_span_bounds_witness :
    4 ≤ 15 ∧ 4 ≤ "say hello world now".data.length ∧
      15 ≤ "say hello world now".data.length +
        (normalize_fragment "hello world".data).length :=
  c1_span_bounds "say hello world now".data "hello world".data 4 15 (by decide)

/-- C2: for every body, every selected meso narrative and every list of
located spans, rendering the merged highlight segments never fails (the
embedding is a total function) and the tag-stripped content of the output
equals the original body character for character. -/
theorem c2_render_content_preserving (selected : Option String) (txt : List Char)
    (ms : List Span) :
    stripPieces (apply_highlights selected txt (merge_overlaps ms)) = txt :=
  render_strip_eq selected txt ms

/-- C3: the code fails this documented behavior.  `normalize_fragment`
leaves `"a 30% rise"` unchanged — the pattern's trailing `\b` after `%`
requires a following word character, so `"30% "` never matches — and the
whole cascade fails to locate the fragment in `"a 30 per cent rise"`: the
gapped-regex escape step turns every escaped space `"\ "` into `"\["`
followed by the rest of the character class, a pattern demanding a
literal `[`. -/
theorem c3_percent_variant_not_located :
    normalize_fragment "a 30% rise".data = "a 30% rise".data ∧
    locate "a 30 per cent rise".data "a 30% rise".data = none :=
  ⟨by decide, by decide⟩

/-- C4, counterexample: under the per-model schema the extractor emits
nothing for an object that has a non-empty fragment but lacks the theme
and meso keys. -/
theorem c4_counterexample :
    extract_all_model_narratives
      [("annotation_parsed_m",
        some (.jarr [.jobj [("text fragment", .jstr "a fragment")]]))] = [] := by
  decide

/-- C4 (amended): the per-model extractor emits an Annotation for a
parsed object exactly when both the narrative theme and the meso
narrative are non-empty strings; the fragment is optional either way and
is only recorded in the `fragment`/`has_fragment` fields. -/
theorem c4_emission_requires_theme_and_meso (model : String)
    (fields : List (String × JVal)) :
    (annOfObj model (JVal.jobj fields)).isSome ↔
      strOkAt fields "narrative theme" ∧ strOkAt fields "meso narrative" :=
  annOfObj_isSome_iff model fields

/-- C5, counterexample: the metadata rows are computed from the
annotations alone, so the `fragment_present` boolean cannot reflect
whether a span was located: the same annotation yields the same row (with
`fragment_present = true`) whether its fragment is locatable in the body
or not. -/
theorem c5_counterexample :
    metaRows none [⟨"qqq", "t", "m", "M", true⟩] =
      [⟨0, false, "M", "t", "m", "qqq", true⟩] ∧
    locate "qqq".data "qqq".data = some (0, 3) ∧
    locate "zzz".data "qqq".data = none :=
  ⟨by decide, by decide, by decide⟩

/-- C5 (amended): the metadata table has one row per Annotation and its
boolean reflects whether a fragment was *present* (`has_fragment`), not
whether a span was located; a present-but-unlocatable fragment is
indistinguishable in the table from a located one. -/
theorem c5_rows_reflect_fragment_presence (selected : Option String)
    (anns : List Ann) :
    (metaRows selected anns).length = anns.length ∧
    (metaRows selected anns).map (fun r => r.fragment_present) =
      anns.map (fun a => a.has_fragment) := by
  constructor
  · unfold metaRows
    rw [List.length_map, List.enum_length]
  · unfold metaRows
    rw [List.map_map]
    have h1 : anns.enum.map
        ((fun r : MetaRow => r.fragment_present) ∘ metaRowOf selected) =
        anns.enum.map (fun p : Nat × Ann => p.2.has_fragment) :=
      List.map_congr_left fun p _ => rfl
    rw [h1]
    have h2 : anns.enum.map (fun p : Nat × Ann => p.2.has_fragment) =
        (anns.enum.map Prod.snd).map (fun a : Ann => a.has_fragment) := by
      rw [List.map_map]
      exact List.map_congr_left fun p _ => rfl
    rw [h2, List.enum_map_snd]

/-- C6, counterexample: two touching spans with the same label produce
two adjacent segments carrying identical label sets, so the merged output
is not maximal. -/
theorem c6_counterexample :
    merge_overlaps [(0, 5, ("t", "m", "M")), (5, 10, ("t", "m", "M"))] =
      [(0, 5, {("t", "m", "M")}), (5, 10, {("t", "m", "M")})] := by
  decide

/-- C6 (amended): the merged segment list is sorted with each segment
ending at or before the next one's start (pairwise non-overlapping) and
every segment nonempty; maximality fails — adjacent touching segments may
carry identical label sets. -/
theorem c6_segments_sorted_disjoint (ms : List Span) :
    List.Chain' (fun x y : Seg => x.2.1 ≤ y.1) (merge_overlaps ms) ∧
    ∀ x ∈ merge_overlaps ms, x.1 < x.2.1 :=
  merge_overlaps_chain ms

/-- C7: merging is order-independent — every permutation of the input
span list produces the identical ordered list of merged segments. -/
theorem c7_merge_order_independent (l1 l2 : List Span) (hp : l1.Perm l2) :
    merge_overlaps l1 = merge_overlaps l2 :=
  merge_overlaps_perm l1 l2 hp

theorem c7_merge_order_independent_witness :
    merge_overlaps [(0, 10, ("a", "a", "A")), (5, 15, ("b", "b", "B"))] =
      merge_overlaps [(5, 15, ("b", "b", "B")), (0, 10, ("a", "a", "A"))] :=
  c7_merge_order_independent _ _ (by decide)

/-- C8: the code fails this documented behavior.  For the fragment
`"the economy ... grew strongly"` and the body
`"...the economy, analysts say, grew strongly last year"` the whole
cascade yields no span at all: the gapped-regex patterns for the two
multi-word parts contain the escaped-space artifact `"\["` and cannot
match, and the fuzzy window scores below the `0.80` threshold. -/
theorem c8_ellipsis_fragment_not_located :
    locate "...the economy, analysts say, grew strongly last year".data
      "the economy ... grew strongly".data = none := by
  decide

/-- C9: every span returned by the fuzzy-anchor strategy has length
exactly the length of the normalized fragment, independent of the body
window that produced the accepted score. -/
theorem c9_fuzzy_span_length (body nf : List Char) (s e : Nat)
    (h : fuzzy_search body nf = some (s, e)) : e - s = nf.length := by
  have := fuzzy_search_shape body nf s e h
  omega

theorem c9_fuzzy_span_length_witness : 15 - 4 = "hello world".data.length :=
  c9_fuzzy_span_length "say hello world now".data "hello world".data 4 15 (by decide)

end MigNar
